import Mathlib

/-!
Verification of the per-row error machinery of the expression evaluation
context (velox/expression/EvalCtx.h) and of the Spark decimal kernels
(velox/functions/sparksql/Decimal.cpp).

The embedding follows the source closely:

* `EvalErrors` models the C++ class of the same name.  Its backing store
  `errors_` is a `FlatVector<std::shared_ptr<void>>`; we model the raw
  nulls buffer (`rawNulls()`) as the boolean function `bits`, where a SET
  bit means "not null", which for this vector means "error present"
  (the vector is created with `allocateNulls(size, pool, bits::kNull)`,
  i.e. all bits clear = all rows null = no error).  The values buffer is
  modelled by `value : Nat -> Option D`, where `none` stands for a null
  `std::shared_ptr` (no captured detail).
* A `SelectivityVector` is modelled by `SelVector`: a length `n` and a
  bit per row; row iteration (`applyToSelected`, `testSelected`) walks
  the selected rows in ascending order.
-/

/-- Model of a SelectivityVector: `n` rows, `sel i` = bit for row `i`. -/
structure SelVector where
  n : Nat
  sel : Nat → Bool

/-- Row `i` is selected: it is in range and its bit is set. -/
def SelVector.isSelected (s : SelVector) (i : Nat) : Bool :=
  decide (i < s.n) && s.sel i

/-- The selected rows in ascending order (the order used by
`applyToSelected` / `testSelected`). -/
def SelVector.selectedList (s : SelVector) : List Nat :=
  (List.range s.n).filter s.sel

/-- SelectivityVector equality (`operator==`): same size and same bits. -/
def selEq (a b : SelVector) : Bool :=
  (a.n == b.n) && (List.range a.n).all (fun i => a.sel i == b.sel i)

/-- `bits::findFirstBit(bits, b, e)`: index of the first set bit in
`[b, e)`, or `-1` if there is none. -/
def findFirstBit (bits : Nat → Bool) (b e : Nat) : Int :=
  match (List.range' b (e - b)).find? bits with
  | some i => (i : Int)
  | none => -1

/-- Model of `EvalErrors`: `size` is `errors_->size()`, `bits i` is bit `i`
of `errors_->rawNulls()` (set = non-null = error present), and `value i`
models `errors_->valueAt(i)` (`none` = null pointer, no detail). -/
structure EvalErrors (D : Type) where
  size : Nat
  bits : Nat → Bool
  value : Nat → Option D

variable {D : Type}

/-- The `EvalErrors(pool, size)` constructor: nulls buffer allocated with
`bits::kNull` (all bits clear, every row "no error"), values buffer not
allocated (every slot reads as a null pointer). -/
def EvalErrors.init (D : Type) (n : Nat) : EvalErrors D :=
  ⟨n, fun _ => false, fun _ => none⟩

/-- `EvalErrors::ensureCapacity(size)`: no-op when the current size is at
or above the request; otherwise resizes and sets every new position to
null (no error), new value slots reading as null pointers. -/
def EvalErrors.ensureCapacity (e : EvalErrors D) (n : Nat) : EvalErrors D :=
  if n ≤ e.size then e
  else
    { size := n
      bits := fun i => if e.size ≤ i ∧ i < n then false else e.bits i
      value := fun i => if e.size ≤ i ∧ i < n then none else e.value i }

/-- `EvalErrors::hasErrorAt(index)`:
`index < errors_->size() && !errors_->isNullAt(index)`; `isNullAt` is the
negation of the raw nulls bit. -/
def EvalErrors.hasErrorAt (e : EvalErrors D) (i : Nat) : Bool :=
  decide (i < e.size) && e.bits i

/-- `EvalErrors::hasError()`:
`bits::findFirstBit(rawNulls, 0, size) >= 0`. -/
def EvalErrors.hasError (e : EvalErrors D) : Bool :=
  decide (0 ≤ findFirstBit e.bits 0 e.size)

/-- `EvalErrors::errorFlags()`: read-only access to the raw nulls buffer
(bit set = row has an error). -/
def EvalErrors.errorFlags (e : EvalErrors D) : Nat → Bool :=
  e.bits

/-- `EvalErrors::setError(index)` (no detail): ensure capacity, then
`setNull(index, false)`, i.e. set the bit. -/
def EvalErrors.setError (e : EvalErrors D) (i : Nat) : EvalErrors D :=
  let e1 := e.ensureCapacity (i + 1)
  { e1 with bits := fun j => if j = i then true else e1.bits j }

/-- `EvalErrors::clearError(index)`: in range only, `setNull(index, true)`,
i.e. clear the bit (the value slot is left untouched). -/
def EvalErrors.clearError (e : EvalErrors D) (i : Nat) : EvalErrors D :=
  if i < e.size then { e with bits := fun j => if j = i then false else e.bits j }
  else e

/-- `EvalErrors::setError(index, exceptionPtr)`: ensure capacity; if the
row is still null (no error yet), `errors_->set(index, ptr)`, which stores
the detail and marks the row non-null; otherwise a no-op. -/
def EvalErrors.setErrorDetail (e : EvalErrors D) (i : Nat) (d : D) : EvalErrors D :=
  let e1 := e.ensureCapacity (i + 1)
  if e1.bits i then e1
  else
    { e1 with
      bits := fun j => if j = i then true else e1.bits j
      value := fun j => if j = i then some d else e1.value j }

/-- `EvalErrors::errorAt(index)`: `none` when the row has no error;
`some none` when it has an error but no captured detail;
`some (some d)` when it has an error with detail `d`. -/
def EvalErrors.errorAt (e : EvalErrors D) (i : Nat) : Option (Option D) :=
  if e.hasErrorAt i then
    match e.value i with
    | some d => some (some d)
    | none => some none
  else none

/-- `EvalErrors::throwIfErrorAt(index)`: `none` = returns normally,
`some (some d)` = rethrows the captured failure `d`, `some none` = the
`VELOX_CHECK_NOT_NULL` on the missing detail fires. -/
def EvalErrors.throwIfErrorAt (e : EvalErrors D) (i : Nat) : Option (Option D) :=
  if e.hasErrorAt i then some (e.value i) else none

/-- The `testSelected` loop body of `EvalErrors::throwFirstError`: walk the
selected rows in ascending order; for a row below the error vector size,
throw if it has an error and continue otherwise; stop at the first row at
or beyond the size. -/
def EvalErrors.throwFirstErrorGo (e : EvalErrors D) : List Nat → Option (Option D)
  | [] => none
  | i :: rest =>
    if i < e.size then
      (match e.throwIfErrorAt i with
       | some r => some r
       | none => e.throwFirstErrorGo rest)
    else none

/-- `EvalErrors::throwFirstError(rows)`. -/
def EvalErrors.throwFirstError (e : EvalErrors D) (rows : SelVector) : Option (Option D) :=
  e.throwFirstErrorGo rows.selectedList

/-- The first selected row carrying an error, if any. -/
def firstErrorRow (e : EvalErrors D) (rows : SelVector) : Option Nat :=
  (rows.selectedList.filter (fun i => e.hasErrorAt i)).head?

/-! ### Basic lemmas about `EvalErrors` operations -/

theorem size_ensureCapacity (e : EvalErrors D) (n : Nat) :
    (e.ensureCapacity n).size = max e.size n := by
  unfold EvalErrors.ensureCapacity
  split <;> simp <;> omega

theorem bits_ensureCapacity (e : EvalErrors D) (n i : Nat) :
    (e.ensureCapacity n).bits i = if e.size ≤ i ∧ i < n then false else e.bits i := by
  unfold EvalErrors.ensureCapacity
  split
  · rename_i h
    split
    · rename_i h1
      omega
    · rfl
  · rfl

theorem value_ensureCapacity (e : EvalErrors D) (n i : Nat) :
    (e.ensureCapacity n).value i = if e.size ≤ i ∧ i < n then none else e.value i := by
  unfold EvalErrors.ensureCapacity
  split
  · rename_i h
    split
    · rename_i h1
      omega
    · rfl
  · rfl

theorem hasErrorAt_ensureCapacity (e : EvalErrors D) (n i : Nat) :
    (e.ensureCapacity n).hasErrorAt i = e.hasErrorAt i := by
  simp only [EvalErrors.hasErrorAt, size_ensureCapacity, bits_ensureCapacity]
  by_cases h1 : e.size ≤ i ∧ i < n
  · have h2 : ¬ i < e.size := by omega
    simp [h1, h2]
  · by_cases h2 : i < e.size
    · have h3 : i < max e.size n := by omega
      simp [h1, h2, h3]
    · have h3 : ¬ i < max e.size n := by omega
      simp [h1, h2, h3]

theorem ensureCapacity_of_le (e : EvalErrors D) (n : Nat) (h : n ≤ e.size) :
    e.ensureCapacity n = e := by
  unfold EvalErrors.ensureCapacity
  simp [h]

theorem hasErrorAt_setError (e : EvalErrors D) (r i : Nat) :
    (e.setError r).hasErrorAt i = (decide (i = r) || e.hasErrorAt i) := by
  unfold EvalErrors.setError
  simp only [EvalErrors.hasErrorAt, size_ensureCapacity, bits_ensureCapacity]
  by_cases h : i = r
  · subst h
    have h1 : i < max e.size (i + 1) := by omega
    simp [h1]
  · simp only [decide_eq_true_eq, h, decide_False, Bool.false_or]
    by_cases h2 : i < e.size
    · have h3 : i < max e.size (r + 1) := by omega
      have h4 : ¬ (e.size ≤ i ∧ i < r + 1) := by omega
      simp [h2, h3, h4]
    · by_cases h3 : i < max e.size (r + 1)
      · have h4 : e.size ≤ i ∧ i < r + 1 := by omega
        simp [h2, h3, h4]
      · simp [h2, h3]

theorem hasErrorAt_setErrorDetail (e : EvalErrors D) (r i : Nat) (d : D) :
    (e.setErrorDetail r d).hasErrorAt i = (decide (i = r) || e.hasErrorAt i) := by
  simp only [EvalErrors.setErrorDetail]
  split
  · rename_i hb
    rw [hasErrorAt_ensureCapacity]
    by_cases h : i = r
    · subst h
      rw [bits_ensureCapacity] at hb
      by_cases hs : e.size ≤ i ∧ i < i + 1
      · simp [hs] at hb
      · have hlt : i < e.size := by omega
        rw [if_neg hs] at hb
        simp [EvalErrors.hasErrorAt, hlt, hb]
    · simp [h]
  · rename_i hb
    simp only [EvalErrors.hasErrorAt, size_ensureCapacity]
    by_cases h : i = r
    · subst h
      have h1 : i < max e.size (i + 1) := by omega
      simp [h1]
    · simp only [h, decide_False, Bool.false_or, if_neg h]
      have h2 := hasErrorAt_ensureCapacity e (r + 1) i
      simp only [EvalErrors.hasErrorAt, size_ensureCapacity] at h2
      exact h2

theorem setErrorDetail_of_hasErrorAt (e : EvalErrors D) (r : Nat) (d : D)
    (h : e.hasErrorAt r = true) : e.setErrorDetail r d = e := by
  have hr : r < e.size := by
    simp only [EvalErrors.hasErrorAt, Bool.and_eq_true, decide_eq_true_eq] at h
    exact h.1
  have hb : e.bits r = true := by
    simp only [EvalErrors.hasErrorAt, Bool.and_eq_true, decide_eq_true_eq] at h
    exact h.2
  unfold EvalErrors.setErrorDetail
  rw [ensureCapacity_of_le e (r + 1) (by omega)]
  simp [hb]

theorem value_setError (e : EvalErrors D) (r i : Nat) :
    (e.setError r).value i = (e.ensureCapacity (r + 1)).value i := rfl

theorem bits_ensureCapacity_self_false (e : EvalErrors D) (r : Nat)
    (h : e.hasErrorAt r = false) : (e.ensureCapacity (r + 1)).bits r = false := by
  rw [bits_ensureCapacity]
  by_cases hs : e.size ≤ r ∧ r < r + 1
  · simp [hs]
  · have hlt : r < e.size := by omega
    rw [if_neg hs]
    simpa [EvalErrors.hasErrorAt, hlt] using h

theorem value_setErrorDetail_fresh (e : EvalErrors D) (r : Nat) (d : D)
    (h : e.hasErrorAt r = false) : (e.setErrorDetail r d).value r = some d := by
  simp only [EvalErrors.setErrorDetail]
  rw [if_neg (by simp [bits_ensureCapacity_self_false e r h])]
  simp

theorem errorAt_setErrorDetail_fresh (e : EvalErrors D) (r : Nat) (d : D)
    (h : e.hasErrorAt r = false) : (e.setErrorDetail r d).errorAt r = some (some d) := by
  have h1 : (e.setErrorDetail r d).hasErrorAt r = true := by
    rw [hasErrorAt_setErrorDetail]; simp
  have h2 := value_setErrorDetail_fresh e r d h
  simp [EvalErrors.errorAt, h1, h2]

/-- C2: on a row with no error recorded, a sequence of detail-bearing
`setError(index, exceptionPtr)` calls stores the first detail written
(first-writer-wins), and `clearError` followed by a detail-bearing
`setError` stores the new detail. -/
theorem errorSet_firstWriterWins :
    (∀ (e : EvalErrors D) (r : Nat) (d : D) (ds : List D), e.hasErrorAt r = false →
      (ds.foldl (fun a d2 => a.setErrorDetail r d2) (e.setErrorDetail r d)).errorAt r
        = some (some d))
    ∧ (∀ (e : EvalErrors D) (r : Nat) (d : D),
      ((e.clearError r).setErrorDetail r d).errorAt r = some (some d)) := by
  constructor
  · intro e r d ds h
    have h2 : (e.setErrorDetail r d).hasErrorAt r = true := by
      rw [hasErrorAt_setErrorDetail]; simp
    have key : ∀ (l : List D) (a : EvalErrors D), a.hasErrorAt r = true →
        l.foldl (fun a d2 => a.setErrorDetail r d2) a = a := by
      intro l
      induction l with
      | nil => intro a _; rfl
      | cons x xs ih =>
        intro a ha
        simp only [List.foldl_cons]
        rw [setErrorDetail_of_hasErrorAt a r x ha]
        exact ih a ha
    rw [key ds _ h2]
    exact errorAt_setErrorDetail_fresh e r d h
  · intro e r d
    have h : (e.clearError r).hasErrorAt r = false := by
      unfold EvalErrors.clearError
      split
      · simp [EvalErrors.hasErrorAt]
      · rename_i hn
        simp [EvalErrors.hasErrorAt]
        omega
    exact errorAt_setErrorDetail_fresh _ r d h

def eC2 : EvalErrors Nat := EvalErrors.init Nat 2

theorem errorSet_firstWriterWins_witness :
    (([2, 3] : List Nat).foldl (fun a d2 => a.setErrorDetail 0 d2)
        (eC2.setErrorDetail 0 1)).errorAt 0 = some (some 1)
    ∧ ((eC2.clearError 1).setErrorDetail 1 7).errorAt 1 = some (some 7) :=
  ⟨errorSet_firstWriterWins.1 eC2 0 1 [2, 3] (by decide),
   errorSet_firstWriterWins.2 eC2 1 7⟩

/-- C9: `setError(index)` without detail sets the presence bit; a later
detail-bearing `setError(index, exceptionPtr)` is then a no-op, so
`errorAt(index)` reports an error whose detail slot is null (`some none`)
rather than the detail `d`.  The hypothesis says the detail slot of the
row was empty beforehand (as on any freshly initialised or never
detail-written row). -/
theorem setError_then_detail (e : EvalErrors D) (r : Nat) (d : D)
    (hv : e.value r = none) :
    (e.setError r).hasErrorAt r = true
    ∧ (e.setError r).setErrorDetail r d = e.setError r
    ∧ ((e.setError r).setErrorDetail r d).errorAt r = some none := by
  have h1 : (e.setError r).hasErrorAt r = true := by
    rw [hasErrorAt_setError]; simp
  have h2 := setErrorDetail_of_hasErrorAt (e.setError r) r d h1
  have h3 : (e.setError r).value r = none := by
    rw [value_setError, value_ensureCapacity]
    by_cases hs : e.size ≤ r ∧ r < r + 1
    · simp [hs]
    · rw [if_neg hs]
      exact hv
  refine ⟨h1, h2, ?_⟩
  rw [h2]
  simp [EvalErrors.errorAt, h1, h3]

def eC9 : EvalErrors Nat := EvalErrors.init Nat 2

theorem setError_then_detail_witness :
    ((eC9.setError 1).setErrorDetail 1 5).errorAt 1 = some none :=
  (setError_then_detail eC9 1 5 (by decide)).2.2

theorem size_le_foldl_ensureCapacity (e : EvalErrors D) (l : List Nat) :
    e.size ≤ (l.foldl EvalErrors.ensureCapacity e).size := by
  induction l generalizing e with
  | nil => simp
  | cons x xs ih =>
    simp only [List.foldl_cons]
    have h1 : e.size ≤ (e.ensureCapacity x).size := by
      rw [size_ensureCapacity]; omega
    exact le_trans h1 (ih _)

theorem mem_le_foldl_ensureCapacity (l : List Nat) (n : Nat) :
    ∀ (e : EvalErrors D), n ∈ l → n ≤ (l.foldl EvalErrors.ensureCapacity e).size := by
  induction l with
  | nil => intro e hn; cases hn
  | cons x xs ih =>
    intro e hn
    simp only [List.foldl_cons]
    rcases List.mem_cons.mp hn with h | h
    · subst h
      have h1 : n ≤ (e.ensureCapacity n).size := by rw [size_ensureCapacity]; omega
      have h2 := size_le_foldl_ensureCapacity (e.ensureCapacity n) xs
      omega
    · exact ih _ h

theorem hasErrorAt_foldl_ensureCapacity (l : List Nat) (i : Nat) :
    ∀ (e : EvalErrors D), (l.foldl EvalErrors.ensureCapacity e).hasErrorAt i = e.hasErrorAt i := by
  induction l with
  | nil => intro e; rfl
  | cons x xs ih =>
    intro e
    simp only [List.foldl_cons]
    rw [ih, hasErrorAt_ensureCapacity]

/-- C6: over any sequence of `ensureCapacity` calls, `size()` is
non-decreasing (along every split of the sequence), ends at least as large
as every requested capacity, and every position at or beyond the original
size reports no error afterwards. -/
theorem ensureCapacity_monotone (e : EvalErrors D) (ns : List Nat) :
    (∀ l1 l2, ns = l1 ++ l2 →
      (l1.foldl EvalErrors.ensureCapacity e).size
        ≤ (ns.foldl EvalErrors.ensureCapacity e).size)
    ∧ (∀ n, n ∈ ns → n ≤ (ns.foldl EvalErrors.ensureCapacity e).size)
    ∧ (∀ i, e.size ≤ i → (ns.foldl EvalErrors.ensureCapacity e).hasErrorAt i = false) := by
  refine ⟨?_, ?_, ?_⟩
  · intro l1 l2 hsplit
    subst hsplit
    rw [List.foldl_append]
    exact size_le_foldl_ensureCapacity _ l2
  · intro n hn
    exact mem_le_foldl_ensureCapacity ns n e hn
  · intro i hi
    rw [hasErrorAt_foldl_ensureCapacity]
    simp [EvalErrors.hasErrorAt]
    omega

def eC6 : EvalErrors Nat := EvalErrors.init Nat 1

theorem ensureCapacity_monotone_witness :
    ([2].foldl EvalErrors.ensureCapacity eC6).size
      ≤ ([2, 3].foldl EvalErrors.ensureCapacity eC6).size
    ∧ 3 ≤ ([2, 3].foldl EvalErrors.ensureCapacity eC6).size
    ∧ ([2, 3].foldl EvalErrors.ensureCapacity eC6).hasErrorAt 2 = false :=
  ⟨(ensureCapacity_monotone eC6 [2, 3]).1 [2] [3] rfl,
   (ensureCapacity_monotone eC6 [2, 3]).2.1 3 (by decide),
   (ensureCapacity_monotone eC6 [2, 3]).2.2 2 (by decide)⟩

/-- C10: `hasErrorAt(index)` is false for every index at or beyond
`size()` (and, being a const accessor, does not grow the set), and
`hasError()` holds exactly when some row below `size()` has an error, so
rows beyond the current size never report an error. -/
theorem hasError_within_size (e : EvalErrors D) :
    (∀ i, e.size ≤ i → e.hasErrorAt i = false)
    ∧ (e.hasError = true ↔ ∃ i, i < e.size ∧ e.hasErrorAt i = true) := by
  constructor
  · intro i h
    simp [EvalErrors.hasErrorAt]
    omega
  · unfold EvalErrors.hasError findFirstBit
    cases hfind : (List.range' 0 (e.size - 0)).find? e.bits with
    | some j =>
      simp only [hfind]
      constructor
      · intro _
        have hj1 := List.find?_some hfind
        have hj2 := List.mem_of_find?_eq_some hfind
        rw [List.mem_range'_1] at hj2
        have hj3 : j < e.size := by omega
        exact ⟨j, hj3, by simp [EvalErrors.hasErrorAt, hj3, hj1]⟩
      · intro _
        simp
    | none =>
      simp only [hfind]
      constructor
      · intro h
        norm_num at h
      · rintro ⟨i, hi, herr⟩
        have hmem : i ∈ List.range' 0 (e.size - 0) := by
          rw [List.mem_range'_1]
          omega
        have := List.find?_eq_none.mp hfind i hmem
        simp [EvalErrors.hasErrorAt, hi] at herr
        simp [herr] at this

def eC10 : EvalErrors Nat := (EvalErrors.init Nat 3).setError 1

theorem hasError_within_size_witness :
    eC10.hasErrorAt 5 = false ∧ eC10.hasError = true :=
  ⟨(hasError_within_size eC10).1 5 (by decide),
   (hasError_within_size eC10).2.mpr ⟨1, by decide, by decide⟩⟩

def eC1 : EvalErrors Nat := (EvalErrors.init Nat 1).setError 0

/-- C1 counterexample: the claim says the `errorFlags()` bit of a row is
clear exactly when an error is present.  On the set obtained by marking
row 0 errored, bit 0 is SET while an error IS present at row 0, so the
claimed equivalence fails at this concrete input. -/
theorem errorFlags_claim_counterexample :
    ¬ ((eC1.errorFlags 0 = false) ↔ (eC1.hasErrorAt 0 = true)) := by decide

/-- C1 amended: for every row below `size()`, the `errorFlags()` bit is
SET exactly when an error is present at that row (and clear exactly when
no error is present); the bitmap is valid only for the first `size()`
bits. -/
theorem errorFlags_set_iff_error (e : EvalErrors D) (r : Nat) (h : r < e.size) :
    e.errorFlags r = true ↔ e.hasErrorAt r = true := by
  simp [EvalErrors.errorFlags, EvalErrors.hasErrorAt, h]

theorem errorFlags_set_iff_error_witness : eC1.errorFlags 0 = true :=
  (errorFlags_set_iff_error eC1 0 (by decide)).mpr (by decide)

theorem mem_selectedList (rows : SelVector) (i : Nat) :
    i ∈ rows.selectedList ↔ rows.isSelected i = true := by
  simp [SelVector.selectedList, SelVector.isSelected, List.mem_filter, List.mem_range]

theorem throwFirstErrorGo_eq (e : EvalErrors D) (l : List Nat)
    (hl : l.Pairwise (fun a b => a < b)) :
    e.throwFirstErrorGo l
      = ((l.filter (fun i => e.hasErrorAt i)).head?).map (fun r => e.value r) := by
  induction l with
  | nil => rfl
  | cons i rest ih =>
    rw [List.pairwise_cons] at hl
    simp only [EvalErrors.throwFirstErrorGo, List.filter_cons]
    by_cases hi : i < e.size
    · rw [if_pos hi]
      by_cases herr : e.hasErrorAt i = true
      · simp only [EvalErrors.throwIfErrorAt, herr, if_true]
        simp [herr]
      · have herr' : e.hasErrorAt i = false := by simpa using herr
        simp only [EvalErrors.throwIfErrorAt, herr']
        rw [ih hl.2]
        simp [herr']
    · rw [if_neg hi]
      have herr : e.hasErrorAt i = false := by
        simp [EvalErrors.hasErrorAt]
        omega
      have hnone : ∀ j ∈ rest, e.hasErrorAt j = false := by
        intro j hj
        have hij : i < j := hl.1 j hj
        simp [EvalErrors.hasErrorAt]
        omega
      have hfil : rest.filter (fun j => e.hasErrorAt j) = [] := by
        rw [List.filter_eq_nil_iff]
        intro a ha
        simp [hnone a ha]
      simp [herr, hfil]

theorem selectedList_pairwise (rows : SelVector) :
    rows.selectedList.Pairwise (fun a b => a < b) :=
  List.Pairwise.sublist (List.filter_sublist _) (List.pairwise_lt_range _)

/-- C5: provided error details were captured for every errored row below
`size()`, `throwFirstError(rows)` raises the captured failure of the
smallest selected row with an error, and raises nothing when no selected
row has an error. -/
theorem throwFirstError_spec (e : EvalErrors D) (rows : SelVector)
    (hdet : ∀ i, i < e.size → e.hasErrorAt i = true → e.value i ≠ none) :
    (firstErrorRow e rows = none ↔ ∀ j, rows.isSelected j = true → e.hasErrorAt j = false)
    ∧ (firstErrorRow e rows = none → e.throwFirstError rows = none)
    ∧ (∀ r, firstErrorRow e rows = some r →
        e.throwFirstError rows = some (e.value r)
        ∧ e.value r ≠ none
        ∧ e.hasErrorAt r = true
        ∧ rows.isSelected r = true
        ∧ (∀ j, rows.isSelected j = true → e.hasErrorAt j = true → r ≤ j)) := by
  have hmain : e.throwFirstError rows = (firstErrorRow e rows).map (fun r => e.value r) :=
    throwFirstErrorGo_eq e rows.selectedList (selectedList_pairwise rows)
  refine ⟨?_, ?_, ?_⟩
  · simp only [firstErrorRow, List.head?_eq_none_iff, List.filter_eq_nil_iff, mem_selectedList]
    constructor
    · intro h j hj
      have := h j hj
      simpa using this
    · intro h a ha
      simp [h a ha]
  · intro h
    rw [hmain, h]
    rfl
  · intro r hr
    obtain ⟨t, ht⟩ : ∃ t, rows.selectedList.filter (fun i => e.hasErrorAt i) = r :: t := by
      cases hfil : rows.selectedList.filter (fun i => e.hasErrorAt i) with
      | nil =>
        rw [firstErrorRow, hfil] at hr
        cases hr
      | cons a t =>
        rw [firstErrorRow, hfil] at hr
        simp only [List.head?_cons, Option.some.injEq] at hr
        exact ⟨t, by rw [← hr]⟩
    have hmem : r ∈ rows.selectedList.filter (fun i => e.hasErrorAt i) := by
      rw [ht]
      exact List.mem_cons_self r t
    rw [List.mem_filter] at hmem
    have hsel : rows.isSelected r = true := (mem_selectedList rows r).mp hmem.1
    have herr : e.hasErrorAt r = true := by simpa using hmem.2
    have hlt : r < e.size := by
      simp only [EvalErrors.hasErrorAt, Bool.and_eq_true, decide_eq_true_eq] at herr
      exact herr.1
    refine ⟨by rw [hmain, hr]; rfl, hdet r hlt herr, herr, hsel, ?_⟩
    intro j hj hje
    have hjmem : j ∈ rows.selectedList.filter (fun i => e.hasErrorAt i) := by
      rw [List.mem_filter]
      exact ⟨(mem_selectedList rows j).mpr hj, by simpa using hje⟩
    rw [ht] at hjmem
    have hpw : (r :: t).Pairwise (fun a b => a < b) := by
      rw [← ht]
      exact List.Pairwise.sublist (List.filter_sublist _) (selectedList_pairwise rows)
    rcases List.mem_cons.mp hjmem with h | h
    · omega
    · have := (List.pairwise_cons.mp hpw).1 j h
      omega

def eC5 : EvalErrors Nat := ((EvalErrors.init Nat 4).setErrorDetail 2 9).setErrorDetail 3 5

def rowsC5 : SelVector := ⟨4, fun i => decide (1 ≤ i)⟩

theorem throwFirstError_spec_witness :
    eC5.throwFirstError rowsC5 = some (some 9) := by
  have h := ((throwFirstError_spec eC5 rowsC5 (by decide)).2.2 2 (by decide)).1
  rw [h]
  decide

/-! ### The no-throw adapter of `EvalCtx` -/

/-- Possible per-row outcomes of a kernel invoked under
`applyToSelectedNoThrow`: normal return, a user-level VeloxException, a
non-user (system) VeloxException, or another std::exception. -/
inductive Outcome (D : Type) where
  | ok
  | veloxUser (ex : D)
  | veloxSystem (ex : D)
  | stdExc (ex : D)

/-- Modelled from the spec: `EvalCtx::setError(index, exceptionPtr)` is
declared in EvalCtx.h but implemented in EvalCtx.cpp, which is not among
the sources.  Per the spec ("set_error(row, failure): captures failure if
capture_error_details; else marks presence only.  Allocates errors on
demand."), it allocates the error set on demand and records the failure
at the row: with detail when capture_error_details is set, presence-only
otherwise; recording never overwrites an existing error. -/
def ctxSetError (capture : Bool) (errs : Option (EvalErrors D)) (row : Nat) (ex : D) :
    Option (EvalErrors D) :=
  let e := errs.getD (EvalErrors.init D 0)
  some (if capture then e.setErrorDetail row ex else e.setError row)

/-- Modelled from the spec: `EvalCtx::setVeloxExceptionError` (also
implemented in EvalCtx.cpp) is the "more performant" variant for failures
the caller knows to be user-level VeloxExceptions; it has the same
recording semantics as `ctxSetError`. -/
def ctxSetVeloxExceptionError (capture : Bool) (errs : Option (EvalErrors D)) (row : Nat)
    (ex : D) : Option (EvalErrors D) :=
  ctxSetError capture errs row ex

/-- Whether the context's (on-demand) error set has an error at `i`. -/
def ctxHasErrorAt (errs : Option (EvalErrors D)) (i : Nat) : Bool :=
  match errs with
  | none => false
  | some e => e.hasErrorAt i

/-- The `applyToSelected` loop of `EvalCtx::applyToSelectedNoThrow`: for
each selected row in ascending order run the kernel; a user-level
VeloxException is recorded via `setVeloxExceptionError`, another
std::exception via `setError`, and a non-user VeloxException is re-raised
(second component `some ex`), aborting the loop. -/
def applyToSelectedNoThrowGo (capture : Bool) (f : Nat → Outcome D) :
    List Nat → Option (EvalErrors D) → Option (EvalErrors D) × Option D
  | [], errs => (errs, none)
  | row :: rest, errs =>
    match f row with
    | Outcome.ok => applyToSelectedNoThrowGo capture f rest errs
    | Outcome.veloxUser ex =>
        applyToSelectedNoThrowGo capture f rest (ctxSetVeloxExceptionError capture errs row ex)
    | Outcome.veloxSystem ex => (errs, some ex)
    | Outcome.stdExc ex =>
        applyToSelectedNoThrowGo capture f rest (ctxSetError capture errs row ex)

/-- `EvalCtx::applyToSelectedNoThrow(rows, func)` over the context's error
state; returns the final error state and the escaped exception, if any. -/
def applyToSelectedNoThrow (capture : Bool) (rows : SelVector) (f : Nat → Outcome D)
    (errs : Option (EvalErrors D)) : Option (EvalErrors D) × Option D :=
  applyToSelectedNoThrowGo capture f rows.selectedList errs

theorem hasErrorAt_init (D : Type) (n i : Nat) :
    (EvalErrors.init D n).hasErrorAt i = false := by
  simp [EvalErrors.init, EvalErrors.hasErrorAt]

theorem ctxHasErrorAt_ctxSetError (capture : Bool) (errs : Option (EvalErrors D))
    (j i : Nat) (ex : D) :
    ctxHasErrorAt (ctxSetError capture errs j ex) i
      = (decide (i = j) || ctxHasErrorAt errs i) := by
  cases errs with
  | none =>
    cases capture <;>
      simp [ctxSetError, ctxHasErrorAt, hasErrorAt_setError, hasErrorAt_setErrorDetail,
        hasErrorAt_init]
  | some e =>
    cases capture <;>
      simp [ctxSetError, ctxHasErrorAt, hasErrorAt_setError, hasErrorAt_setErrorDetail]

theorem applyGo_user (capture : Bool) (S : Nat → Bool) (exF : Nat → D) :
    ∀ (l : List Nat) (errs : Option (EvalErrors D)),
      (applyToSelectedNoThrowGo capture
          (fun i => if S i then Outcome.veloxUser (exF i) else Outcome.ok) l errs).2 = none
      ∧ ∀ i, ctxHasErrorAt (applyToSelectedNoThrowGo capture
            (fun i => if S i then Outcome.veloxUser (exF i) else Outcome.ok) l errs).1 i = true
          ↔ ((i ∈ l ∧ S i = true) ∨ ctxHasErrorAt errs i = true) := by
  intro l
  induction l with
  | nil =>
    intro errs
    exact ⟨rfl, by intro i; simp [applyToSelectedNoThrowGo]⟩
  | cons j rest ih =>
    intro errs
    simp only [applyToSelectedNoThrowGo]
    by_cases hS : S j = true
    · simp only [hS, if_true]
      refine ⟨(ih _).1, ?_⟩
      intro i
      rw [(ih _).2 i]
      have hset := ctxHasErrorAt_ctxSetError capture errs j i (exF j)
      rw [show ctxSetVeloxExceptionError capture errs j (exF j)
            = ctxSetError capture errs j (exF j) from rfl, hset]
      simp only [List.mem_cons, Bool.or_eq_true, decide_eq_true_eq]
      by_cases hij : i = j
      · subst hij
        simp [hS]
      · simp [hij]
    · have hS' : S j = false := by simpa using hS
      simp only [hS', Bool.false_eq_true, if_false]
      refine ⟨(ih _).1, ?_⟩
      intro i
      rw [(ih _).2 i]
      simp only [List.mem_cons]
      by_cases hij : i = j
      · subst hij
        simp [hS']
      · simp [hij]

theorem applyGo_system (capture : Bool) (r : Nat) (sysEx : D) :
    ∀ (l : List Nat) (errs : Option (EvalErrors D)), r ∈ l →
      applyToSelectedNoThrowGo capture
          (fun i => if i = r then Outcome.veloxSystem sysEx else Outcome.ok) l errs
        = (errs, some sysEx) := by
  intro l
  induction l with
  | nil => intro errs h; cases h
  | cons j rest ih =>
    intro errs hmem
    simp only [applyToSelectedNoThrowGo]
    by_cases hj : j = r
    · simp [hj]
    · have hrmem : r ∈ rest := by
        rcases List.mem_cons.mp hmem with h | h
        · exact absurd h.symm hj
        · exact h
      simp only [hj, if_false]
      exact ih errs hrmem

/-- C3: `applyToSelectedNoThrow(rows, f)` visits every selected row.  When
`f` raises user-level failures at exactly the rows of `S` (a subset of the
selected rows) and succeeds elsewhere, no failure escapes and afterwards
the context's error set marks exactly the rows of `S` together with the
rows already marked before the call.  When `f` raises a non-user (system)
VeloxException at a selected row, that failure is re-raised out of the
call and nothing is recorded. -/
theorem applyToSelectedNoThrow_spec (capture : Bool) (rows : SelVector)
    (S : Nat → Bool) (exF : Nat → D) (errs : Option (EvalErrors D)) (sysEx : D) (r : Nat)
    (hS : ∀ i, S i = true → rows.isSelected i = true)
    (hr : rows.isSelected r = true) :
    (applyToSelectedNoThrow capture rows
        (fun i => if S i then Outcome.veloxUser (exF i) else Outcome.ok) errs).2 = none
    ∧ (∀ i, ctxHasErrorAt (applyToSelectedNoThrow capture rows
          (fun i => if S i then Outcome.veloxUser (exF i) else Outcome.ok) errs).1 i = true
        ↔ (S i = true ∨ ctxHasErrorAt errs i = true))
    ∧ applyToSelectedNoThrow capture rows
        (fun i => if i = r then Outcome.veloxSystem sysEx else Outcome.ok) errs
        = (errs, some sysEx) := by
  simp only [applyToSelectedNoThrow]
  refine ⟨(applyGo_user capture S exF rows.selectedList errs).1, ?_, ?_⟩
  · intro i
    rw [(applyGo_user capture S exF rows.selectedList errs).2 i]
    constructor
    · rintro (⟨_, hSi⟩ | h)
      · exact Or.inl hSi
      · exact Or.inr h
    · rintro (hSi | h)
      · exact Or.inl ⟨(mem_selectedList rows i).mpr (hS i hSi), hSi⟩
      · exact Or.inr h
  · exact applyGo_system capture r sysEx rows.selectedList errs
      ((mem_selectedList rows r).mpr hr)

def rowsC3 : SelVector := ⟨4, fun _ => true⟩

theorem applyToSelectedNoThrow_spec_witness :
    (applyToSelectedNoThrow true rowsC3
        (fun i => if decide (i = 2) then Outcome.veloxUser (0 : Nat) else Outcome.ok)
        (none : Option (EvalErrors Nat))).2 = none
    ∧ ctxHasErrorAt (applyToSelectedNoThrow true rowsC3
        (fun i => if decide (i = 2) then Outcome.veloxUser (0 : Nat) else Outcome.ok)
        (none : Option (EvalErrors Nat))).1 2 = true
    ∧ applyToSelectedNoThrow true rowsC3
        (fun i => if i = 1 then Outcome.veloxSystem (7 : Nat) else Outcome.ok)
        (none : Option (EvalErrors Nat))
        = (none, some 7) := by
  have h := applyToSelectedNoThrow_spec true rowsC3 (fun i => decide (i = 2))
    (fun _ => (0 : Nat)) none 7 1
    (by
      intro i hi
      have h2 : i = 2 := by simpa using hi
      subst h2
      decide)
    (by decide)
  exact ⟨h.1, (h.2.1 2).mpr (Or.inl (by decide)), h.2.2⟩

/-! ### Result preservation in `EvalCtx` -/

variable {α : Type}

/-- A (flat) result vector: a size and per-row values. -/
structure Vec (α : Type) where
  n : Nat
  val : Nat → α

/-- `EvalCtx::resultShouldBePreserved(result, rows)`:
`result && !isFinalSelection() && *finalSelection() != rows`. -/
def resultShouldBePreserved (isFinalSelection : Bool) (finalSelection : SelVector)
    (result : Option (Vec α)) (rows : SelVector) : Bool :=
  result.isSome && !isFinalSelection && !(selEq finalSelection rows)

/-- `EvalCtx::moveOrCopyResult(localResult, rows, result)`: when the
partially populated `result` must be preserved, make it writable and copy
the selected rows of `localResult` into it (`BaseVector::ensureWritable`
and `BaseVector::copy` are outside the sources and are modelled from the
spec: after the copy, selected rows hold the local values and all other
rows keep their previous values); otherwise transfer the local handle
into `result`. -/
def moveOrCopyResult (isFinalSelection : Bool) (finalSelection : SelVector)
    (localResult : Vec α) (rows : SelVector) (result : Option (Vec α)) : Option (Vec α) :=
  if resultShouldBePreserved isFinalSelection finalSelection result rows then
    match result with
    | some res =>
        some { n := max res.n rows.n
               val := fun i => if rows.isSelected i then localResult.val i else res.val i }
    | none => result
  else some localResult

/-- Value of an optional vector at a row. -/
def vecValAt (o : Option (Vec α)) (i : Nat) : Option α :=
  o.map (fun v => v.val i)

/-- C4: `resultShouldBePreserved(result, rows)` holds exactly when
`result` is non-null, `isFinalSelection()` is false and
`*finalSelection() != rows`; in that case `moveOrCopyResult(local, rows,
result)` leaves `result[i]` unchanged for every unselected `i` and makes
`result[i]` equal to `local[i]` for every selected `i`; in every other
case it transfers the local handle into `result`. -/
theorem moveOrCopyResult_spec (isFinal : Bool) (finalSel rows : SelVector)
    (localResult : Vec α) (result : Option (Vec α)) :
    (resultShouldBePreserved isFinal finalSel result rows = true
      ↔ (result.isSome = true ∧ isFinal = false ∧ selEq finalSel rows = false))
    ∧ (∀ res, result = some res →
        resultShouldBePreserved isFinal finalSel result rows = true →
        (∀ i, rows.isSelected i = false →
          vecValAt (moveOrCopyResult isFinal finalSel localResult rows result) i
            = some (res.val i))
        ∧ (∀ i, rows.isSelected i = true →
          vecValAt (moveOrCopyResult isFinal finalSel localResult rows result) i
            = some (localResult.val i)))
    ∧ (resultShouldBePreserved isFinal finalSel result rows = false →
        moveOrCopyResult isFinal finalSel localResult rows result = some localResult) := by
  refine ⟨?_, ?_, ?_⟩
  · constructor
    · intro h
      simp only [resultShouldBePreserved, Bool.and_eq_true, Bool.not_eq_true'] at h
      exact ⟨h.1.1, h.1.2, h.2⟩
    · rintro ⟨h1, h2, h3⟩
      simp [resultShouldBePreserved, h1, h2, h3]
  · intro res hres hpres
    subst hres
    constructor
    · intro i hi
      simp [moveOrCopyResult, hpres, vecValAt, hi]
    · intro i hi
      simp [moveOrCopyResult, hpres, vecValAt, hi]
  · intro h
    simp [moveOrCopyResult, h]

def finalSelC4 : SelVector := ⟨4, fun _ => true⟩

def rowsC4 : SelVector := ⟨4, fun i => decide (i = 0 ∨ i = 2)⟩

def resC4 : Vec Nat := ⟨4, fun i => 10 + i⟩

def localC4 : Vec Nat := ⟨4, fun i => 20 + i⟩

theorem moveOrCopyResult_spec_witness :
    vecValAt (moveOrCopyResult false finalSelC4 localC4 rowsC4 (some resC4)) 1 = some 11
    ∧ vecValAt (moveOrCopyResult false finalSelC4 localC4 rowsC4 (some resC4)) 0 = some 20 := by
  have h := (moveOrCopyResult_spec false finalSelC4 rowsC4 localC4 (some resC4)).2.1
    resC4 rfl (by decide)
  exact ⟨h.1 1 (by decide), h.2 0 (by decide)⟩

/-! ### Spark decimal kernels (Decimal.cpp) -/

/-- Half-up (round half away from zero) division of `v` by the positive
divisor `d`. -/
def roundHalfUp (v : Int) (d : Nat) : Int :=
  let q : Nat := (v.natAbs + d / 2) / d
  if v < 0 then -(q : Int) else (q : Int)

/-- The rescaled value, before any overflow check: multiply by a power of
ten when the scale grows, divide half-up when it shrinks. -/
def rescaledHalfUp (v : Int) (fromScale toScale : Nat) : Int :=
  if fromScale ≤ toScale then v * (10 : Int) ^ (toScale - fromScale)
  else roundHalfUp v (10 ^ (fromScale - toScale))

/-- Modelled from the spec: `DecimalUtil::rescaleWithRoundUp`
(velox/type/DecimalUtil.h, not among the sources) rescales an unscaled
decimal value from scale `fromScale` to scale `toScale` with half-up
rounding and signals overflow (`none`, "null the row") when the rescaled
value does not fit in `toPrecision` digits, i.e. when its magnitude
reaches `10 ^ toPrecision`. -/
def rescaleWithRoundUp (v : Int) (fromScale toScale toPrecision : Nat) : Option Int :=
  let r := rescaledHalfUp v fromScale toScale
  if r.natAbs < 10 ^ toPrecision then some r else none

/-- The output-type computation of `RoundDecimalFunction::apply`
(Decimal.cpp): from the input type `(fromPrecision, fromScale)` and the
constant `scale` argument, compute `(toPrecision, toScale)`. -/
def roundDecimalOutType (fromPrecision fromScale : Nat) (scale : Int) : Nat × Nat :=
  let integralLeastNumDigits : Int := (fromPrecision : Int) - (fromScale : Int) + 1
  if scale < 0 then
    let newPrecision : Int := max integralLeastNumDigits (-(fromScale : Int) + 1)
    ((min newPrecision 38).toNat, 0)
  else
    let toScale : Int := min (fromScale : Int) scale
    ((min (integralLeastNumDigits + toScale) 38).toNat, toScale.toNat)

/-- The output-type rule exactly as the spec states it:
`integralDigits = p_in - s_in + 1`; if `scale < 0` then
`p_out = min(max(integralDigits, -s_in + 1), 38)` and `s_out = 0`;
otherwise `s_out = min(s_in, scale)` and
`p_out = min(integralDigits + s_out, 38)`. -/
def roundDecimalOutTypeSpec (pIn sIn : Nat) (scale : Int) : Nat × Nat :=
  let integralDigits : Int := (pIn : Int) - (sIn : Int) + 1
  if scale < 0 then
    ((min (max integralDigits (-(sIn : Int) + 1)) 38).toNat, 0)
  else
    ((min (integralDigits + min (sIn : Int) scale) 38).toNat,
     (min (sIn : Int) scale).toNat)

/-- The per-row computation of `RoundDecimalFunction::apply`: rescale the
selected row's unscaled value to the computed output type with half-up
rounding; `none` means the row is set to null (overflow). -/
def roundDecimalRow (fromPrecision fromScale : Nat) (scale : Int) (v : Int) : Option Int :=
  let t := roundDecimalOutType fromPrecision fromScale scale
  rescaleWithRoundUp v fromScale t.2 t.1

/-- C7: `round_decimal` on input type `(p_in, s_in)` with constant `scale`
computes its output type by the spec's formula, and each selected row is
rescaled to that type with half-up rounding, the row being nulled exactly
when the rescaled value overflows the output precision. -/
theorem roundDecimal_spec (p s : Nat) (scale : Int) (v : Int) :
    roundDecimalOutType p s scale = roundDecimalOutTypeSpec p s scale
    ∧ (roundDecimalRow p s scale v = none ↔
        10 ^ (roundDecimalOutType p s scale).1
          ≤ (rescaledHalfUp v s (roundDecimalOutType p s scale).2).natAbs)
    ∧ (∀ r, roundDecimalRow p s scale v = some r →
        r = rescaledHalfUp v s (roundDecimalOutType p s scale).2
        ∧ (rescaledHalfUp v s (roundDecimalOutType p s scale).2).natAbs
            < 10 ^ (roundDecimalOutType p s scale).1) := by
  refine ⟨rfl, ?_, ?_⟩
  · simp only [roundDecimalRow, rescaleWithRoundUp]
    by_cases h : (rescaledHalfUp v s (roundDecimalOutType p s scale).2).natAbs
        < 10 ^ (roundDecimalOutType p s scale).1
    · simp [h]
    · simp [h]
      omega
  · intro r hr
    simp only [roundDecimalRow, rescaleWithRoundUp] at hr
    by_cases h : (rescaledHalfUp v s (roundDecimalOutType p s scale).2).natAbs
        < 10 ^ (roundDecimalOutType p s scale).1
    · simp [h] at hr
      exact ⟨hr.symm, h⟩
    · simp [h] at hr

theorem roundDecimal_spec_witness :
    roundDecimalOutType 5 3 1 = (4, 1)
    ∧ (123 : Int) = rescaledHalfUp 12345 3 (roundDecimalOutType 5 3 1).2 := by
  have h := (roundDecimal_spec 5 3 1 12345).2.2 123 (by decide)
  exact ⟨by decide, h.1⟩

/-- Outcome of a `make_decimal` row: null result, raised user-level error,
or a stored unscaled value. -/
inductive RowResult where
  | null
  | userError
  | value (v : Int)
deriving DecidableEq

/-- `MakeDecimalFunction<int64_t>::apply` per selected row (short-decimal
output): `bound = DecimalUtil::kPowersOfTen[precision]`, i.e.
`10 ^ precision` (the constant table is outside the sources); if
`unscaled <= -bound || unscaled >= bound`, null the row when
`nullOnOverflow` and raise `VELOX_USER_FAIL` otherwise; else store the
value. -/
def makeDecimalShort (precision : Nat) (nullOnOverflow : Bool) (unscaled : Int) : RowResult :=
  let bound : Int := (10 : Int) ^ precision
  if unscaled ≤ -bound ∨ bound ≤ unscaled then
    (if nullOnOverflow then RowResult.null else RowResult.userError)
  else RowResult.value unscaled

/-- `MakeDecimalFunction<int128_t>::apply` per selected row (long-decimal
output): the int64 unscaled value is widened to 128 bits and stored with
no overflow check. -/
def makeDecimalLong (unscaled : Int) : RowResult :=
  RowResult.value unscaled

/-- C8: for short-decimal output of witness precision `p`, `make_decimal`
nulls the row (when `null_on_overflow`) or raises a user-level error
(otherwise) exactly when `|unscaled| >= 10 ^ p`, and stores the value
otherwise; for long-decimal output every int64 value is accepted. -/
theorem makeDecimal_spec (p : Nat) (nullOnOverflow : Bool) (u : Int) :
    (u.natAbs < 10 ^ p → makeDecimalShort p nullOnOverflow u = RowResult.value u)
    ∧ (10 ^ p ≤ u.natAbs →
        makeDecimalShort p nullOnOverflow u
          = (if nullOnOverflow then RowResult.null else RowResult.userError))
    ∧ makeDecimalLong u = RowResult.value u := by
  have hcast : ((10 ^ p : Nat) : Int) = (10 : Int) ^ p := by push_cast; ring
  refine ⟨?_, ?_, rfl⟩
  · intro h
    have h2 : ¬ (u ≤ -((10 : Int) ^ p) ∨ (10 : Int) ^ p ≤ u) := by
      rw [← hcast]
      omega
    simp [makeDecimalShort, h2]
  · intro h
    have h2 : u ≤ -((10 : Int) ^ p) ∨ (10 : Int) ^ p ≤ u := by
      rw [← hcast]
      omega
    simp [makeDecimalShort, h2]

theorem makeDecimal_spec_witness :
    makeDecimalShort 2 true 99 = RowResult.value 99
    ∧ makeDecimalShort 2 false 100 = RowResult.userError
    ∧ makeDecimalLong 100 = RowResult.value 100 := by
  refine ⟨(makeDecimal_spec 2 true 99).1 (by decide), ?_, (makeDecimal_spec 2 true 100).2.2⟩
  have h := (makeDecimal_spec 2 false 100).2.1 (by decide)
  simpa using h
